import Mathlib

/-!
# Verification of the `classRoom` timetabling engine

Shallow embedding of the repository's optimization core, from
`src/timetable.py` (`solve_optimal`, lines 107-257, and the helpers it uses)
and the upload pipeline in `src/main.py` (lines 29-35).

The ILP model built by `solve_optimal` is embedded as a feasibility predicate
over 0/1 valuations of the PuLP variable dictionary `X`, plus the objective
and the solver sense.  The external CBC solver is treated as a black box that
returns some feasible (optimal) valuation; properties of "every returned
schedule" are therefore stated over every valuation satisfying the model's
constraints (with optimality added where a claim demands it).
-/

namespace ClassRoom

/-- Days of the week, `DAYS = ['월', '화', '수', '목', '금']`
(timetable.py line 129). -/
def DAYS : List String := ["월", "화", "수", "목", "금"]

/-- `T_MAX = 9`, the number of hour slots per day (timetable.py line 130). -/
def T_MAX : Nat := 9

/-- `TIME_SLOTS = range(1, T_MAX + 1)` (timetable.py line 131). -/
def TIME_SLOTS : List Nat := [1, 2, 3, 4, 5, 6, 7, 8, 9]

/-- The data `solve_optimal` works with after its preparation phase
(timetable.py lines 149-164): the course and room id lists and the
dictionaries keyed by `Course_ID` / `Room_ID`.  `dur` is `course_duration`
(column `time`), `prof` is `course_professor`, `enr` is `course_enrollment`,
`cap` is `room_capacity`; `subj`, `cls`, `dept`, `grade` are the remaining
columns of `courses_df` consulted during extraction and report generation. -/
structure Inst where
  courses : List String
  rooms : List String
  dur : String → Nat
  prof : String → String
  enr : String → Nat
  cap : String → Nat
  subj : String → String
  cls : String → String
  dept : String → String
  grade : String → Nat

/-- A key `(c, r, d, t)` of the PuLP variable dictionary `X`. -/
abbrev Key := String × String × String × Nat

/-- The guard on the generator of `X` (timetable.py line 179):
`t + course_duration.get(c, 0) - 1 <= T_MAX`. -/
def keyFits (I : Inst) (c : String) (t : Nat) : Bool :=
  decide (t + I.dur c - 1 ≤ T_MAX)

/-- The keys of `X` for a fixed course `c`: all `(c, r, d, t)` with
`r in CLASSROOMS`, `d in DAYS`, `t in TIME_SLOTS` passing the guard,
in generation order (timetable.py lines 172-180). -/
def keysFor (I : Inst) (c : String) : List Key :=
  I.rooms.flatMap fun r =>
    DAYS.flatMap fun d =>
      (TIME_SLOTS.filter (keyFits I c)).map fun t => (c, r, d, t)

/-- The key set of the variable dictionary `X` itself.  `LpVariable.dicts`
stores the generated tuples as dictionary keys, so duplicates produced by
repeated ids in the input collapse; `dedup` models that. -/
def allKeys (I : Inst) : List Key :=
  (I.courses.flatMap (keysFor I)).dedup

/-- A 0/1 valuation of the variables `X[c, r, d, t]`.  Only values on
`allKeys` are ever consulted. -/
abbrev Assign := Key → Bool

/-- Whether the block of course `c` started at `t` occupies slot `k`:
`t <= k <= t + course_duration.get(c, 0) - 1` (timetable.py lines 212, 221). -/
def occupies (I : Inst) (c : String) (t k : Nat) : Bool :=
  decide (t ≤ k) && decide (k ≤ t + I.dur c - 1)

/-- Constraint 3.1 (timetable.py lines 189-194): for every course the sum of
its variables is at most 1 — `<= 1`, not `== 1`. -/
def courseAtMostOnce (I : Inst) (A : Assign) : Prop :=
  ∀ c ∈ I.courses, ((keysFor I c).filter A).length ≤ 1

/-- Constraint 3.2 (timetable.py lines 196-204): if the enrollment of `c`
exceeds the capacity of `r`, each `X[c, r, d, t]` is constrained to 0. -/
def capacityHard (I : Inst) (A : Assign) : Prop :=
  ∀ c ∈ I.courses, ∀ r ∈ I.rooms, I.enr c > I.cap r →
    ∀ d ∈ DAYS, ∀ t ∈ TIME_SLOTS, keyFits I c t = true →
      A (c, r, d, t) = false

/-- Constraint 3.3 (timetable.py lines 206-212): for every room, day and slot
`k`, at most one assigned block covers `k`.  The sum iterates the keys of
`X`. -/
def roomConflictFree (I : Inst) (A : Assign) : Prop :=
  ∀ r ∈ I.rooms, ∀ d ∈ DAYS, ∀ k ∈ TIME_SLOTS,
    ((allKeys I).filter fun q =>
      q.2.1 == r && q.2.2.1 == d && occupies I q.1 q.2.2.2 k && A q).length ≤ 1

/-- Constraint 3.4 (timetable.py lines 214-222): for every professor (the
deduplicated `courses_df['professor'].unique()`), day and slot `k`, at most
one assigned block of that professor covers `k`. -/
def profConflictFree (I : Inst) (A : Assign) : Prop :=
  ∀ p ∈ (I.courses.map I.prof).dedup, ∀ d ∈ DAYS, ∀ k ∈ TIME_SLOTS,
    ((allKeys I).filter fun q =>
      I.prof q.1 == p && q.2.2.1 == d && occupies I q.1 q.2.2.2 k && A q).length ≤ 1

/-- A valuation satisfying every constraint of the built model. -/
def Feasible (I : Inst) (A : Assign) : Prop :=
  courseAtMostOnce I A ∧ capacityHard I A ∧ roomConflictFree I A ∧ profConflictFree I A

instance (I : Inst) (A : Assign) : Decidable (courseAtMostOnce I A) := by
  unfold courseAtMostOnce; infer_instance

instance (I : Inst) (A : Assign) : Decidable (capacityHard I A) := by
  unfold capacityHard; infer_instance

instance (I : Inst) (A : Assign) : Decidable (roomConflictFree I A) := by
  unfold roomConflictFree; infer_instance

instance (I : Inst) (A : Assign) : Decidable (profConflictFree I A) := by
  unfold profConflictFree; infer_instance

instance (I : Inst) (A : Assign) : Decidable (Feasible I A) := by
  unfold Feasible; infer_instance

/-- The sense of the built problem.  `LpProblem(..., LpMaximize)`
(timetable.py line 169). -/
inductive Sense where
  | maximize : Sense
  | minimize : Sense
deriving DecidableEq

/-- The problem sense of `solve_optimal`'s model: maximization. -/
def probSense : Sense := Sense.maximize

/-- The objective (timetable.py line 184): the total number of variables set
to 1, `lpSum(X[c, r, d, t] for ... in X)`. -/
def objective (I : Inst) (A : Assign) : Nat :=
  ((allKeys I).filter A).length

/-- A valuation the solver may return on an `Optimal` status: feasible and of
maximal objective value. -/
def OptimalFor (I : Inst) (A : Assign) : Prop :=
  Feasible I A ∧ ∀ B : Assign, Feasible I B → objective I B ≤ objective I A

/-- One row of the extracted `assignment_df` (timetable.py lines 238-249). -/
structure Placement where
  day : String
  subject : String
  cls : String
  time : Nat
  professor : String
  room : String
  start : Nat
  endTime : Nat
  courseId : String
deriving DecidableEq

/-- The row appended for an assigned key (timetable.py lines 238-249);
`End_Time = t + original_row['time'] - 1`. -/
def mkPlacement (I : Inst) (q : Key) : Placement :=
  { day := q.2.2.1, subject := I.subj q.1, cls := I.cls q.1, time := I.dur q.1,
    professor := I.prof q.1, room := q.2.1, start := q.2.2.2,
    endTime := q.2.2.2 + I.dur q.1 - 1, courseId := q.1 }

/-- The extraction loop (timetable.py lines 232-249): iterate the keys of `X`
in order and emit a row for each variable valued 1. -/
def schedule (I : Inst) (A : Assign) : List Placement :=
  (allKeys I).filterMap fun q => if A q then some (mkPlacement I q) else none

/-- The sort key of `sort_values(by=['Classroom_ID', 'Day', 'Start_Time'])`
(timetable.py line 253), compared lexicographically; the string components
are ordered as strings, i.e. lexicographically by code points, which is how
pandas compares `object` columns — a string is ordered as its list of
characters. -/
def placeKey (p : Placement) : List Char ×ₗ (List Char ×ₗ Nat) :=
  toLex (p.room.data, toLex (p.day.data, p.start))

/-- Row `p` sorts no later than row `q`. -/
def keyLE (p q : Placement) : Prop :=
  placeKey p ≤ placeKey q

instance : DecidableRel keyLE := fun p q =>
  inferInstanceAs (Decidable (placeKey p ≤ placeKey q))

instance : IsTotal Placement keyLE :=
  ⟨fun p q => le_total (placeKey p) (placeKey q)⟩

instance : IsTrans Placement keyLE :=
  ⟨fun _ _ _ h h' => le_trans h h'⟩

/-- `sort_values(by=['Classroom_ID', 'Day', 'Start_Time'])` followed by
`reset_index(drop=True)`: a stable ascending sort on `placeKey`; the
positional indices of the resulting list are the reset index `0..n-1`. -/
def sortSchedule (l : List Placement) : List Placement :=
  l.insertionSort keyLE

/-- The assignment table returned by `solve_optimal` on a successful solve
with at least one assignment (timetable.py line 253). -/
def returnedSchedule (I : Inst) (A : Assign) : List Placement :=
  sortSchedule (schedule I A)

/-- The hour intervals of two placements are disjoint: no slot `k` lies in
both blocks `[start, End_Time]`. -/
def hourDisjoint (p q : Placement) : Prop :=
  ∀ k : Nat, ¬(p.start ≤ k ∧ k ≤ p.endTime ∧ q.start ≤ k ∧ k ≤ q.endTime)

/-- The student-group identity of a course, as used for grouping in
`generate_html_timetable` (timetable.py lines 271-280): department, grade and
section (`수강분반`). -/
def groupOf (I : Inst) (c : String) : String × Nat × String :=
  (I.dept c, I.grade c, I.cls c)

/-! ### The spec's weighted objective (for claim C3)

The code's objective is the plain assignment count above.  The following
definitions transcribe the objective the specification describes, to compare
the two. -/

/-- Modelled from the spec: default weight `W_SIZE = 50`. -/
def W_SIZE : ℚ := 50

/-- Modelled from the spec: default weight `W_ROOM_PREF = 100`. -/
def W_ROOM_PREF : ℚ := 100

/-- Modelled from the spec: default weight `W_DAY_PREF = 25`. -/
def W_DAY_PREF : ℚ := 25

/-- Modelled from the spec: `w(c, r, d) = capacity_penalty + room_preference
term + day_preference term` with the spec's formulas (spec §4.3, Objective). -/
def specWeight (I : Inst) (prefRooms prefDays : List (String × String))
    (c r d : String) : ℚ :=
  (if I.cap r < I.enr c then ((I.enr c : ℚ) - (I.cap r : ℚ)) * W_SIZE * 5
   else if (3 : ℚ) / 2 * (I.enr c : ℚ) < (I.cap r : ℚ) then
     ((I.cap r : ℚ) - (I.enr c : ℚ)) * W_SIZE * (1 / 10)
   else 0)
  + (if (I.prof c, r) ∈ prefRooms then -W_ROOM_PREF else 0)
  + (if (I.prof c, d) ∈ prefDays then -W_DAY_PREF else 0)

/-- Modelled from the spec: the minimization objective
`Σ X[c, r, d, h] · w(c, r, d)` (spec §4.3, Objective). -/
def specObjective (I : Inst) (prefRooms prefDays : List (String × String))
    (A : Assign) : ℚ :=
  (((allKeys I).filter A).map fun q =>
    specWeight I prefRooms prefDays q.1 q.2.1 q.2.2.1).sum

/-! ### Enrollment normalization (for claim C7)

`solve_optimal` builds `course_enrollment` from the `enrollment` column when
it exists and otherwise silently fills in 30 for every course, printing a
console warning (timetable.py lines 158-164).  An absent column is modelled
as `none`; `.get(c, 0)` look-ups outside the dictionary give 0. -/

/-- The `course_enrollment` dictionary as a total look-up: the column value
for known courses when the column exists, the constant default 30 otherwise
(timetable.py lines 158-164). -/
def mkCourseEnrollment : Option (String → Nat) → List String → (String → Nat)
  | some col, courseIds => fun c => if c ∈ courseIds then col c else 0
  | none, courseIds => fun c => if c ∈ courseIds then 30 else 0

/-- Modelled from the spec: the spec's normalizer fails with `SchemaError`
(reported as an `Except.error`) when the required `enrollment` field is
missing (spec §4.1, §7); no such error path exists in the code. -/
def specNormalizeEnrollment :
    Option (String → Nat) → List String → Except String (String → Nat)
  | some col, courseIds => Except.ok fun c => if c ∈ courseIds then col c else 0
  | none, _ => Except.error "SchemaError: missing field enrollment"

/-! ### Course rows, section letters and derived ids (claims C8, C9)

`main.py` lines 31-33 derive the section letter by `groupby(['개설학과',
'교과목명', '개설학년']).cumcount()` mapped through `chr(ord('A') + k)`;
`timetable.py` line 418 derives `Course_ID = subject + '_' + class`. -/

/-- One uploaded course row with its required logical fields
(`개설학과`/dept, `교과목명`/subject, `개설학년`/grade, professor,
`교과목학점`/credit, enrollment). -/
structure CourseRow where
  dept : String
  subject : String
  grade : Nat
  professor : String
  credit : Nat
  enrollment : Nat
deriving DecidableEq

/-- The grouping key of `groupby(['개설학과', '교과목명', '개설학년'])`. -/
def bucket (r : CourseRow) : String × String × Nat :=
  (r.dept, r.subject, r.grade)

/-- `cumcount()` for the row at position `n`: the number of earlier rows in
the same `(dept, subject, grade)` group (main.py line 31). -/
def cumcountAt (rows : List CourseRow) (n : Nat) (h : n < rows.length) : Nat :=
  ((rows.take n).filter fun p => bucket p == bucket (rows.get ⟨n, h⟩)).length

/-- `chr(ord('A') + k)` (main.py line 32). -/
def sectionChar (k : Nat) : Char :=
  Char.ofNat ('A'.toNat + k)

/-- The derived identifier `Course_ID = subject + '_' + class`
(timetable.py line 418), with the section letter of main.py line 32 as the
class value. -/
def courseIdAt (rows : List CourseRow) (n : Nat) (h : n < rows.length) : String :=
  (rows.get ⟨n, h⟩).subject ++ "_" ++ String.mk [sectionChar (cumcountAt rows n h)]

/-- The semester adjustment of main.py lines 34-35: when `semester == 2`,
the credit hours of every grade-3 row are doubled in place; otherwise the
rows are untouched. -/
def applySemesterAdjust (semester : Nat) (rows : List CourseRow) : List CourseRow :=
  if semester = 2 then
    rows.map fun r => if r.grade = 3 then { r with credit := r.credit * 2 } else r
  else rows

/-! ### Concrete instances used as counterexamples and witnesses -/

/-- A single course whose duration 10 exceeds the day grid, so `X` has no
key for it: the model is trivially `Optimal` with the course unplaced. -/
def instLong : Inst :=
  { courses := ["C"], rooms := ["R"], dur := fun _ => 10, prof := fun _ => "P",
    enr := fun _ => 30, cap := fun _ => 45, subj := fun _ => "S",
    cls := fun _ => "A", dept := fun _ => "D", grade := fun _ => 1 }

/-- The all-zero valuation. -/
def assignNone : Assign := fun _ => false

/-- Two courses of the same student group `("D", 1, "A")` with different
professors, two rooms: nothing in the model couples them. -/
def instGroup : Inst :=
  { courses := ["C1", "C2"], rooms := ["R1", "R2"], dur := fun _ => 1,
    prof := fun c => c, enr := fun _ => 10, cap := fun _ => 45,
    subj := fun c => c, cls := fun _ => "A", dept := fun _ => "D",
    grade := fun _ => 1 }

/-- Both group-mates scheduled on 월 at slot 1, in different rooms. -/
def assignGroup : Assign := fun q =>
  q == ("C1", "R1", "월", 1) || q == ("C2", "R2", "월", 1)

/-- One course (enrollment equal to capacity, duration 2), one room. -/
def instOne : Inst :=
  { courses := ["C"], rooms := ["R"], dur := fun _ => 2, prof := fun _ => "P",
    enr := fun _ => 30, cap := fun _ => 30, subj := fun _ => "S",
    cls := fun _ => "A", dept := fun _ => "D", grade := fun _ => 1 }

/-- The single course of `instOne` placed in room R on 월 at slot 1. -/
def assignOne : Assign := fun q => q == ("C", "R", "월", 1)

/-- A placement on 화 (Tuesday), used to exhibit the string ordering of the
`Day` column. -/
def placeTue : Placement :=
  { day := "화", subject := "S1", cls := "A", time := 1, professor := "P1",
    room := "R", start := 1, endTime := 1, courseId := "S1_A" }

/-- A placement on 금 (Friday) in the same room at the same hour. -/
def placeFri : Placement :=
  { day := "금", subject := "S2", cls := "A", time := 1, professor := "P2",
    room := "R", start := 1, endTime := 1, courseId := "S2_A" }

/-- A course row in department D1. -/
def rowD1 : CourseRow :=
  { dept := "D1", subject := "S", grade := 1, professor := "P1", credit := 3,
    enrollment := 30 }

/-- A distinct course row with the same subject and grade in department D2. -/
def rowD2 : CourseRow :=
  { dept := "D2", subject := "S", grade := 1, professor := "P2", credit := 3,
    enrollment := 25 }

/-- A second row of the same `(dept, subject, grade)` bucket as `rowD1`. -/
def rowD1b : CourseRow :=
  { dept := "D1", subject := "S", grade := 1, professor := "P2", credit := 3,
    enrollment := 40 }

/-- A grade-3 row, for the semester adjustment. -/
def rowG3 : CourseRow :=
  { dept := "D", subject := "T", grade := 3, professor := "P", credit := 2,
    enrollment := 20 }

/-- A grade-1 row, for the semester adjustment. -/
def rowG1 : CourseRow :=
  { dept := "D", subject := "U", grade := 1, professor := "P", credit := 3,
    enrollment := 20 }

/-! ### Basic structural lemmas about the embedded model -/

theorem mem_TIME_SLOTS {k : Nat} : k ∈ TIME_SLOTS ↔ 1 ≤ k ∧ k ≤ 9 := by
  simp only [TIME_SLOTS, List.mem_cons, List.not_mem_nil, or_false]
  omega

theorem mem_keysFor {I : Inst} {c : String} {q : Key} :
    q ∈ keysFor I c ↔
      q.1 = c ∧ q.2.1 ∈ I.rooms ∧ q.2.2.1 ∈ DAYS ∧ q.2.2.2 ∈ TIME_SLOTS ∧
        keyFits I c q.2.2.2 = true := by
  obtain ⟨c', r', d', t'⟩ := q
  simp only [keysFor, List.mem_flatMap, List.mem_map, List.mem_filter,
    Prod.mk.injEq]
  constructor
  · rintro ⟨r, hr, d, hd, t, ⟨ht, hfit⟩, rfl, rfl, rfl, rfl⟩
    exact ⟨rfl, hr, hd, ht, hfit⟩
  · rintro ⟨rfl, hr, hd, ht, hfit⟩
    exact ⟨r', hr, d', hd, t', ⟨ht, hfit⟩, rfl, rfl, rfl, rfl⟩

theorem mem_allKeys {I : Inst} {q : Key} :
    q ∈ allKeys I ↔
      q.1 ∈ I.courses ∧ q.2.1 ∈ I.rooms ∧ q.2.2.1 ∈ DAYS ∧
        q.2.2.2 ∈ TIME_SLOTS ∧ keyFits I q.1 q.2.2.2 = true := by
  simp only [allKeys, List.mem_dedup, List.mem_flatMap]
  constructor
  · rintro ⟨c, hc, hq⟩
    obtain ⟨rfl, h⟩ := mem_keysFor.mp hq
    exact ⟨hc, h⟩
  · rintro ⟨hc, h⟩
    exact ⟨q.1, hc, mem_keysFor.mpr ⟨rfl, h⟩⟩

theorem allKeys_nodup (I : Inst) : (allKeys I).Nodup :=
  List.nodup_dedup _

/-- Two distinct elements that both pass a filter witness that the filtered
list has length at least 2. -/
theorem two_le_length_filter {α : Type} [DecidableEq α] {l : List α}
    {p : α → Bool} {a b : α} (hab : a ≠ b) (ha : a ∈ l) (hb : b ∈ l)
    (hpa : p a = true) (hpb : p b = true) : 2 ≤ (l.filter p).length := by
  have ha' : a ∈ (l.filter p).toFinset :=
    List.mem_toFinset.mpr (List.mem_filter.mpr ⟨ha, hpa⟩)
  have hb' : b ∈ (l.filter p).toFinset :=
    List.mem_toFinset.mpr (List.mem_filter.mpr ⟨hb, hpb⟩)
  calc 2 = ({a, b} : Finset α).card := (Finset.card_pair hab).symm
    _ ≤ (l.filter p).toFinset.card := by
        apply Finset.card_le_card
        intro x hx
        rcases Finset.mem_insert.mp hx with rfl | hx
        · exact ha'
        · rcases Finset.mem_singleton.mp hx with rfl
          exact hb'
    _ ≤ (l.filter p).length := List.toFinset_card_le _

/-- A duplicate-free list contained in another list is no longer than it. -/
theorem length_le_of_nodup_subset {α : Type} [DecidableEq α] {l₁ l₂ : List α}
    (hnd : l₁.Nodup) (hsub : ∀ a ∈ l₁, a ∈ l₂) : l₁.length ≤ l₂.length := by
  calc l₁.length = l₁.toFinset.card := (List.toFinset_card_of_nodup hnd).symm
    _ ≤ l₂.toFinset.card := by
        apply Finset.card_le_card
        intro x hx
        exact List.mem_toFinset.mpr (hsub x (List.mem_toFinset.mp hx))
    _ ≤ l₂.length := List.toFinset_card_le _

/-- Core conflict-freedom of feasible valuations: two extracted placements on
the same day that share the room or share the professor occupy disjoint hour
blocks (constraints 3.3 and 3.4 together with the key guard). -/
theorem schedule_pairwise_conflict (I : Inst) (A : Assign) (hF : Feasible I A) :
    (schedule I A).Pairwise fun p q =>
      p.day = q.day → (p.room = q.room ∨ p.professor = q.professor) →
        hourDisjoint p q := by
  obtain ⟨_hcourse, _hcap, hroom, hprof⟩ := hF
  rw [schedule]
  apply List.pairwise_filterMap.mpr
  refine List.Pairwise.imp_of_mem ?_ (allKeys_nodup I)
  intro q1 q2 hq1 hq2 hne p hp p' hp'
  by_cases hA1 : A q1
  swap
  · simp only [if_neg hA1, Option.mem_def, reduceCtorEq] at hp
  by_cases hA2 : A q2
  swap
  · simp only [if_neg hA2, Option.mem_def, reduceCtorEq] at hp'
  simp only [if_pos hA1, Option.mem_def, Option.some.injEq] at hp
  simp only [if_pos hA2, Option.mem_def, Option.some.injEq] at hp'
  subst hp hp'
  obtain ⟨hc1, hr1, hd1, ht1, hfit1⟩ := mem_allKeys.mp hq1
  obtain ⟨hc2, hr2, hd2, ht2, hfit2⟩ := mem_allKeys.mp hq2
  intro hday hconf k hk
  obtain ⟨hs1, he1, hs2, he2⟩ := hk
  simp only [mkPlacement] at hday hconf hs1 he1 hs2 he2
  have hfit1' : q1.2.2.2 + I.dur q1.1 - 1 ≤ T_MAX := of_decide_eq_true hfit1
  have ht1' := mem_TIME_SLOTS.mp ht1
  have hkmem : k ∈ TIME_SLOTS := by
    refine mem_TIME_SLOTS.mpr ⟨le_trans ht1'.1 hs1, le_trans he1 hfit1'⟩
  have hocc1 : occupies I q1.1 q1.2.2.2 k = true := by
    simp only [occupies, Bool.and_eq_true, decide_eq_true_eq]
    exact ⟨hs1, he1⟩
  have hocc2 : occupies I q2.1 q2.2.2.2 k = true := by
    simp only [occupies, Bool.and_eq_true, decide_eq_true_eq]
    exact ⟨hs2, he2⟩
  rcases hconf with hr | hp
  · -- same room: contradict constraint 3.3 at (room, day, k)
    have hcon := hroom q1.2.1 hr1 q1.2.2.1 hd1 k hkmem
    have h2 := two_le_length_filter
      (p := fun q => q.2.1 == q1.2.1 && q.2.2.1 == q1.2.2.1 &&
        occupies I q.1 q.2.2.2 k && A q) hne hq1 hq2 ?_ ?_
    · omega
    · simp [hocc1, hA1]
    · simp [hocc2, hA2, ← hr, ← hday]
  · -- same professor: contradict constraint 3.4 at (prof, day, k)
    have hpmem : I.prof q1.1 ∈ (I.courses.map I.prof).dedup :=
      List.mem_dedup.mpr (List.mem_map_of_mem I.prof hc1)
    have hcon := hprof (I.prof q1.1) hpmem q1.2.2.1 hd1 k hkmem
    have h2 := two_le_length_filter
      (p := fun q => I.prof q.1 == I.prof q1.1 && q.2.2.1 == q1.2.2.1 &&
        occupies I q.1 q.2.2.2 k && A q) hne hq1 hq2 ?_ ?_
    · omega
    · simp [hocc1, hA1]
    · simp [hocc2, hA2, ← hp, ← hday]

/-- Counting extracted placements of a course over any key list equals
counting its assigned keys. -/
theorem countP_filterMap_assign (I : Inst) (A : Assign) (c : String) :
    ∀ l : List Key,
      ((l.filterMap fun q => if A q then some (mkPlacement I q) else none).countP
        fun p => p.courseId == c) =
      (l.filter fun q => A q && q.1 == c).length := by
  intro l
  induction l with
  | nil => rfl
  | cons q l ih =>
    by_cases hA : A q
    · simp only [List.filterMap_cons, if_pos hA]
      by_cases hc : (q.1 == c) = true
      · have hp : ((mkPlacement I q).courseId == c) = true := hc
        have hfc : (A q && q.1 == c) = true := by simp [hA, hc]
        rw [List.countP_cons_of_pos (fun p : Placement => p.courseId == c) _ hp, ih,
          List.filter_cons_of_pos (p := fun q => A q && q.1 == c) hfc,
          List.length_cons]
      · have hp : ¬((mkPlacement I q).courseId == c) = true := hc
        have hfc : ¬(A q && q.1 == c) = true := by simp [hc]
        rw [List.countP_cons_of_neg (fun p : Placement => p.courseId == c) _ hp, ih,
          List.filter_cons_of_neg (p := fun q => A q && q.1 == c) hfc]
    · have hfc : ¬(A q && q.1 == c) = true := by simp [hA]
      simp only [List.filterMap_cons, if_neg hA]
      rw [List.filter_cons_of_neg (p := fun q => A q && q.1 == c) hfc, ih]

/-- The number of extracted rows equals the objective value of the valuation
(the count of variables set to 1). -/
theorem length_schedule_eq_objective (I : Inst) (A : Assign) :
    (schedule I A).length = objective I A := by
  rw [schedule, objective]
  induction allKeys I with
  | nil => rfl
  | cons q l ih =>
    by_cases hA : A q
    · simp [List.filterMap_cons, List.filter_cons, hA, ih]
    · simp [List.filterMap_cons, List.filter_cons, hA, ih]

/-- Constraint 3.1 bounds the objective by the number of distinct courses:
each course contributes at most one assigned key. -/
theorem objective_le_courses (I : Inst) (A : Assign) (hF : Feasible I A) :
    objective I A ≤ I.courses.dedup.length := by
  obtain ⟨hcourse, -, -, -⟩ := hF
  rw [objective]
  set L := (allKeys I).filter A with hL
  have hLnd : L.Nodup := (allKeys_nodup I).filter _
  have hmem : ∀ q ∈ L.toFinset, q.1 ∈ I.courses.dedup.toFinset := by
    intro q hq
    have hq' := List.mem_filter.mp (List.mem_toFinset.mp hq)
    exact List.mem_toFinset.mpr (List.mem_dedup.mpr (mem_allKeys.mp hq'.1).1)
  calc L.length = L.toFinset.card := (List.toFinset_card_of_nodup hLnd).symm
    _ = ∑ c ∈ I.courses.dedup.toFinset,
          (L.toFinset.filter fun q => q.1 = c).card :=
        Finset.card_eq_sum_card_fiberwise hmem
    _ ≤ ∑ _c ∈ I.courses.dedup.toFinset, 1 := by
        apply Finset.sum_le_sum
        intro c hc
        have hcc : c ∈ I.courses := List.mem_dedup.mp (List.mem_toFinset.mp hc)
        have hone := hcourse c hcc
        calc (L.toFinset.filter fun q => q.1 = c).card
            ≤ ((keysFor I c).filter A).toFinset.card := by
              apply Finset.card_le_card
              intro q hq
              obtain ⟨hqL, hqc⟩ := Finset.mem_filter.mp hq
              have hq' := List.mem_filter.mp (List.mem_toFinset.mp hqL)
              have hk := mem_allKeys.mp hq'.1
              refine List.mem_toFinset.mpr (List.mem_filter.mpr ⟨?_, hq'.2⟩)
              exact mem_keysFor.mpr ⟨hqc, hk.2.1, hk.2.2.1, hk.2.2.2.1,
                hqc ▸ hk.2.2.2.2⟩
          _ ≤ ((keysFor I c).filter A).length := List.toFinset_card_le _
          _ ≤ 1 := hone
    _ = I.courses.dedup.toFinset.card := by simp
    _ ≤ I.courses.dedup.length := List.toFinset_card_le _

/-- Membership in the extracted schedule. -/
theorem mem_schedule {I : Inst} {A : Assign} {p : Placement} :
    p ∈ schedule I A ↔ ∃ q ∈ allKeys I, A q = true ∧ p = mkPlacement I q := by
  simp only [schedule, List.mem_filterMap]
  constructor
  · rintro ⟨q, hq, hsome⟩
    by_cases hA : A q
    · rw [if_pos hA, Option.some.injEq] at hsome
      exact ⟨q, hq, hA, hsome.symm⟩
    · rw [if_neg hA] at hsome
      exact absurd hsome (Option.noConfusion)
  · rintro ⟨q, hq, hA, rfl⟩
    exact ⟨q, hq, by rw [if_pos hA]⟩

/-- The returned table is a permutation of the extraction order. -/
theorem returnedSchedule_perm (I : Inst) (A : Assign) :
    (returnedSchedule I A).Perm (schedule I A) :=
  List.perm_insertionSort keyLE (schedule I A)

/-- Under feasibility and positive durations, distinct extracted rows have
distinct sort keys `(room, day, start)`. -/
theorem schedule_placeKey_nodup (I : Inst) (A : Assign) (hF : Feasible I A)
    (hdur : ∀ c ∈ I.courses, 1 ≤ I.dur c) :
    (schedule I A).Pairwise fun p q => placeKey p ≠ placeKey q := by
  have hp := schedule_pairwise_conflict I A hF
  refine hp.imp_of_mem ?_
  intro p q hpm hqm hrel hkey
  have hroom : p.room = q.room := by
    have := congrArg (fun x => (ofLex x).1) hkey
    exact String.ext this
  have hday : p.day = q.day := by
    have := congrArg (fun x => (ofLex (ofLex x).2).1) hkey
    exact String.ext this
  have hstart : p.start = q.start := congrArg (fun x => (ofLex (ofLex x).2).2) hkey
  obtain ⟨qp, hqp, -, rfl⟩ := mem_schedule.mp hpm
  obtain ⟨qq, hqq, -, rfl⟩ := mem_schedule.mp hqm
  have hd1 : 1 ≤ I.dur qp.1 := hdur qp.1 (mem_allKeys.mp hqp).1
  have hd2 : 1 ≤ I.dur qq.1 := hdur qq.1 (mem_allKeys.mp hqq).1
  have hd := hrel hday (Or.inl hroom)
  refine hd (mkPlacement I qp).start ⟨le_refl _, ?_, ?_, ?_⟩
  · show (mkPlacement I qp).start ≤ (mkPlacement I qp).endTime
    simp only [mkPlacement]
    omega
  · exact le_of_eq hstart.symm
  · show (mkPlacement I qp).start ≤ (mkPlacement I qq).endTime
    have h1 : (mkPlacement I qp).start = (mkPlacement I qq).start := hstart
    simp only [mkPlacement] at h1 ⊢
    omega

/-- A sorted permutation of a list of rows with pairwise-distinct sort keys
is unique: the row order is a function of the row set. -/
theorem sorted_perm_unique :
    ∀ {l₁ l₂ : List Placement}, l₁.Perm l₂ → l₁.Pairwise keyLE →
      l₂.Pairwise keyLE → l₁.Pairwise (fun p q => placeKey p ≠ placeKey q) →
      l₁ = l₂ := by
  intro l₁
  induction l₁ with
  | nil =>
    intro l₂ hperm _ _ _
    exact (List.Perm.eq_nil hperm.symm).symm
  | cons a t ih =>
    intro l₂ hperm h1 h2 hnd
    cases l₂ with
    | nil => exact absurd (List.Perm.eq_nil hperm) (by simp)
    | cons b t₂ =>
      obtain ⟨ha1, h1'⟩ := List.pairwise_cons.mp h1
      obtain ⟨hb2, h2'⟩ := List.pairwise_cons.mp h2
      obtain ⟨hnda, hnd'⟩ := List.pairwise_cons.mp hnd
      have hab : a = b := by
        by_contra hne
        have hamem : a ∈ b :: t₂ := hperm.subset (List.mem_cons_self a t)
        have ha2 : a ∈ t₂ := by
          rcases List.mem_cons.mp hamem with h | h
          · exact absurd h hne
          · exact h
        have hbmem : b ∈ a :: t := hperm.symm.subset (List.mem_cons_self b t₂)
        have hb1 : b ∈ t := by
          rcases List.mem_cons.mp hbmem with h | h
          · exact absurd h.symm hne
          · exact h
        exact hnda b hb1 (le_antisymm (ha1 b hb1) (hb2 a ha2))
      subst hab
      rw [ih hperm.cons_inv h1' h2' hnd']

/-! ### Claim C5: room conflict-freedom -/

/-- Claim C5: in every table returned for a successful solve, any two
placements assigned to the same room on the same day have disjoint hour
intervals, a placement starting at `t` with duration `L` occupying hours
`t` through `t + L - 1` (room-conflict constraint, timetable.py lines
206-212). -/
theorem claimC5_room_disjoint (I : Inst) (A : Assign) (hF : Feasible I A) :
    (returnedSchedule I A).Pairwise fun p q =>
      p.room = q.room → p.day = q.day → hourDisjoint p q := by
  have hsym : ∀ {p q : Placement},
      (p.room = q.room → p.day = q.day → hourDisjoint p q) →
      (q.room = p.room → q.day = p.day → hourDisjoint q p) := by
    intro p q h hroom hday k hk
    obtain ⟨h1, h2, h3, h4⟩ := hk
    exact h hroom.symm hday.symm k ⟨h3, h4, h1, h2⟩
  refine (List.Perm.pairwise_iff (fun h => hsym h)
    (returnedSchedule_perm I A)).mpr ?_
  exact (schedule_pairwise_conflict I A hF).imp
    fun h hroom hday => h hday (Or.inl hroom)

/-- Witness for C5: the property holds of a concrete feasible solve. -/
theorem claimC5_room_disjoint_witness :
    (returnedSchedule instOne assignOne).Pairwise fun p q =>
      p.room = q.room → p.day = q.day → hourDisjoint p q :=
  claimC5_room_disjoint instOne assignOne (by decide)

/-! ### Claim C4: hard capacity -/

/-- Claim C4: capacity is a hard constraint — when `enrollment(c) >
capacity(r)` every variable of `c` in `r` is forced to 0, and every
placement in a returned table satisfies
`enrollment(course) ≤ capacity(room)` (timetable.py lines 196-204). -/
theorem claimC4_capacity (I : Inst) (A : Assign) (hF : Feasible I A) :
    (∀ c ∈ I.courses, ∀ r ∈ I.rooms, I.enr c > I.cap r →
      ∀ d ∈ DAYS, ∀ t ∈ TIME_SLOTS, keyFits I c t = true →
        A (c, r, d, t) = false)
    ∧ ∀ p ∈ returnedSchedule I A, I.enr p.courseId ≤ I.cap p.room := by
  refine ⟨hF.2.1, ?_⟩
  intro p hp
  have hp' : p ∈ schedule I A :=
    (returnedSchedule_perm I A).mem_iff.mp hp
  obtain ⟨q, hq, hA, rfl⟩ := mem_schedule.mp hp'
  obtain ⟨hc, hr, hd, ht, hfit⟩ := mem_allKeys.mp hq
  by_contra hlt
  push_neg at hlt
  have hzero := hF.2.1 q.1 hc q.2.1 hr hlt q.2.2.1 hd q.2.2.2 ht hfit
  rw [show (q.1, q.2.1, q.2.2.1, q.2.2.2) = q from rfl] at hzero
  rw [hzero] at hA
  exact Bool.false_ne_true hA

/-- Witness for C4 at a concrete feasible solve and placement. -/
theorem claimC4_capacity_witness :
    instOne.enr (mkPlacement instOne ("C", "R", "월", 1)).courseId ≤
      instOne.cap (mkPlacement instOne ("C", "R", "월", 1)).room :=
  (claimC4_capacity instOne assignOne (by decide)).2
    (mkPlacement instOne ("C", "R", "월", 1))
    ((returnedSchedule_perm instOne assignOne).mem_iff.mpr (by decide))

/-! ### Claim C6: end-of-day fit -/

/-- Claim C6: a course may only start where its whole block fits in the day
grid, so every returned placement has `End_Time = start + duration - 1 ≤
T_MAX`, i.e. `start + duration ≤ T_MAX + 1` (the code's 1-based grid
`1..9`; the spec's `HOUR_END` is the exclusive bound `T_MAX + 1` under the
shift `hour = slot + 8` onto the 9..18 grid); timetable.py lines 172-180
and 244-246. -/
theorem claimC6_end_of_day (I : Inst) (A : Assign) (_hF : Feasible I A) :
    ∀ p ∈ returnedSchedule I A,
      p.endTime = p.start + p.time - 1 ∧ p.endTime ≤ T_MAX ∧
        p.start + p.time ≤ T_MAX + 1 := by
  intro p hp
  have hp' : p ∈ schedule I A :=
    (returnedSchedule_perm I A).mem_iff.mp hp
  obtain ⟨q, hq, hA, rfl⟩ := mem_schedule.mp hp'
  obtain ⟨hc, hr, hd, ht, hfit⟩ := mem_allKeys.mp hq
  have hfit' : q.2.2.2 + I.dur q.1 - 1 ≤ T_MAX := of_decide_eq_true hfit
  have ht' := mem_TIME_SLOTS.mp ht
  simp only [T_MAX] at hfit' ⊢
  refine ⟨rfl, ?_, ?_⟩ <;> simp only [mkPlacement] <;> omega

/-- Witness for C6 at a concrete feasible solve and placement. -/
theorem claimC6_end_of_day_witness :
    (mkPlacement instOne ("C", "R", "월", 1)).endTime =
        (mkPlacement instOne ("C", "R", "월", 1)).start +
          (mkPlacement instOne ("C", "R", "월", 1)).time - 1 ∧
      (mkPlacement instOne ("C", "R", "월", 1)).endTime ≤ T_MAX ∧
      (mkPlacement instOne ("C", "R", "월", 1)).start +
          (mkPlacement instOne ("C", "R", "월", 1)).time ≤ T_MAX + 1 :=
  claimC6_end_of_day instOne assignOne (by decide)
    (mkPlacement instOne ("C", "R", "월", 1))
    ((returnedSchedule_perm instOne assignOne).mem_iff.mpr (by decide))

/-! ### Claim C1: exactly-one vs at-most-one start -/

/-- Claim C1 is false on the code: the model only constrains each course to
at most one start (`<= 1`, timetable.py line 194), and maximizing the
assignment count can leave a course unplaced even at `Optimal`.  With one
course of duration 10 the variable dictionary is empty, the zero valuation
is optimal, and the extracted schedule contains no placement for the
course, not exactly one. -/
theorem claimC1_counterexample :
    OptimalFor instLong assignNone ∧
      ((schedule instLong assignNone).countP fun p => p.courseId == "C") ≠ 1 := by
  have hkeys : allKeys instLong = [] := by decide
  refine ⟨⟨by decide, ?_⟩, by decide⟩
  intro B _hB
  simp [objective, hkeys]

/-- Claim C1 amended: for every feasible valuation, each course has at most
one placement in the returned table (courses can be left unassigned; they
are reported separately as unassigned). -/
theorem claimC1_at_most_once (I : Inst) (A : Assign) (hF : Feasible I A)
    (c : String) :
    ((returnedSchedule I A).countP fun p => p.courseId == c) ≤ 1 := by
  rw [(returnedSchedule_perm I A).countP_eq]
  rw [show schedule I A = (allKeys I).filterMap
    (fun q => if A q then some (mkPlacement I q) else none) from rfl]
  rw [countP_filterMap_assign I A c (allKeys I)]
  by_cases hc : c ∈ I.courses
  · have hnd : ((allKeys I).filter fun q => A q && q.1 == c).Nodup :=
      (allKeys_nodup I).filter _
    have hsub : ∀ q ∈ (allKeys I).filter fun q => A q && q.1 == c,
        q ∈ (keysFor I c).filter A := by
      intro q hq
      obtain ⟨hqk, hcond⟩ := List.mem_filter.mp hq
      obtain ⟨hAq, hqc'⟩ : A q = true ∧ q.1 = c := by simpa using hcond
      have hk := mem_allKeys.mp hqk
      exact List.mem_filter.mpr ⟨mem_keysFor.mpr ⟨hqc', hk.2.1, hk.2.2.1,
        hk.2.2.2.1, hqc' ▸ hk.2.2.2.2⟩, hAq⟩
    exact le_trans (length_le_of_nodup_subset hnd hsub) (hF.1 c hc)
  · have hnil : ((allKeys I).filter fun q => A q && q.1 == c) = [] := by
      refine List.filter_eq_nil_iff.mpr ?_
      intro q hq hcond
      obtain ⟨-, hqc'⟩ : A q = true ∧ q.1 = c := by simpa using hcond
      exact hc (hqc' ▸ (mem_allKeys.mp hq).1)
    simp [hnil]

/-- Witness for the amended C1 at a concrete feasible solve. -/
theorem claimC1_at_most_once_witness :
    ((returnedSchedule instOne assignOne).countP
      fun p => p.courseId == "C") ≤ 1 :=
  claimC1_at_most_once instOne assignOne (by decide) "C"

/-! ### Claim C2: no group-conflict constraint -/

set_option maxRecDepth 40000 in
/-- Claim C2 is false on the code: the model has no student-group conflict
constraint (timetable.py lines 186-222 contain only the per-course,
capacity, room and professor constraints).  Two courses of the same group
`("D", 1, "A")` with different professors may be scheduled in different
rooms on the same day at overlapping hours; the valuation doing so is even
optimal. -/
theorem claimC2_counterexample :
    OptimalFor instGroup assignGroup ∧
      ¬(∀ p ∈ returnedSchedule instGroup assignGroup,
          ∀ q ∈ returnedSchedule instGroup assignGroup,
            groupOf instGroup p.courseId = groupOf instGroup q.courseId →
              p.day = q.day → p = q ∨ hourDisjoint p q) := by
  constructor
  · refine ⟨by decide, ?_⟩
    intro B hB
    calc objective instGroup B ≤ instGroup.courses.dedup.length :=
          objective_le_courses instGroup B hB
      _ ≤ objective instGroup assignGroup := by decide
  · intro h
    have h1 : mkPlacement instGroup ("C1", "R1", "월", 1) ∈
        schedule instGroup assignGroup := by decide
    have h2 : mkPlacement instGroup ("C2", "R2", "월", 1) ∈
        schedule instGroup assignGroup := by decide
    have m1 := (returnedSchedule_perm instGroup assignGroup).mem_iff.mpr h1
    have m2 := (returnedSchedule_perm instGroup assignGroup).mem_iff.mpr h2
    rcases h _ m1 _ m2 (by decide) (by decide) with heq | hdisj
    · exact absurd heq (by decide)
    · exact hdisj 1 (by decide)

/-- Claim C2 amended: the model prevents same-group overlap only through the
room and professor constraints — any two returned placements on the same
day that share the room or the professor (in particular same-group ones)
have disjoint hour intervals; same-group placements with distinct rooms and
professors are not constrained. -/
theorem claimC2_amended_group_via_room_prof (I : Inst) (A : Assign)
    (hF : Feasible I A) :
    (returnedSchedule I A).Pairwise fun p q =>
      groupOf I p.courseId = groupOf I q.courseId → p.day = q.day →
        (p.room = q.room ∨ p.professor = q.professor) → hourDisjoint p q := by
  have hsym : ∀ {p q : Placement},
      (groupOf I p.courseId = groupOf I q.courseId → p.day = q.day →
        (p.room = q.room ∨ p.professor = q.professor) → hourDisjoint p q) →
      (groupOf I q.courseId = groupOf I p.courseId → q.day = p.day →
        (q.room = p.room ∨ q.professor = p.professor) → hourDisjoint q p) := by
    intro p q h hg hday hor k hk
    obtain ⟨h1, h2, h3, h4⟩ := hk
    exact h hg.symm hday.symm (hor.imp Eq.symm Eq.symm) k ⟨h3, h4, h1, h2⟩
  refine (List.Perm.pairwise_iff (fun h => hsym h)
    (returnedSchedule_perm I A)).mpr ?_
  exact (schedule_pairwise_conflict I A hF).imp
    fun h _hg hday hor => h hday hor

/-- Witness for the amended C2 at a concrete feasible solve. -/
theorem claimC2_amended_group_via_room_prof_witness :
    (returnedSchedule instOne assignOne).Pairwise fun p q =>
      groupOf instOne p.courseId = groupOf instOne q.courseId →
        p.day = q.day →
        (p.room = q.room ∨ p.professor = q.professor) → hourDisjoint p q :=
  claimC2_amended_group_via_room_prof instOne assignOne (by decide)

/-! ### Claim C3: the objective -/

/-- Claim C3 is false on the code: `solve_optimal` builds a *maximization*
problem (`LpMaximize`, timetable.py line 169) whose objective is the plain
count of assigned variables (line 184) — not the spec's weighted
minimization.  At a concrete solve (enrollment 30 in a capacity-30 room, no
preferences) the code's objective value is 1 while the spec's objective is
0. -/
theorem claimC3_counterexample :
    probSense ≠ Sense.minimize ∧
      (objective instOne assignOne : ℚ) ≠ specObjective instOne [] [] assignOne := by
  constructor
  · decide
  · have hfil : (allKeys instOne).filter assignOne = [("C", "R", "월", 1)] := by
      decide
    have h1 : objective instOne assignOne = 1 := by
      rw [objective, hfil]
      rfl
    have h2 : specObjective instOne [] [] assignOne = 0 := by
      rw [specObjective, hfil]
      simp only [List.map_cons, List.map_nil, List.sum_cons, List.sum_nil]
      rw [specWeight]
      norm_num [instOne, W_SIZE]
    rw [h1, h2]
    norm_num

/-- Claim C3 amended: the built model is a maximization MILP whose objective
is the total number of assigned start variables — equivalently, the number
of placements extracted from the valuation; no capacity or preference
weights appear. -/
theorem claimC3_amended_maximize_count :
    probSense = Sense.maximize ∧
      ∀ (I : Inst) (A : Assign), objective I A = (schedule I A).length :=
  ⟨rfl, fun I A => (length_schedule_eq_objective I A).symm⟩

/-! ### Claim C7: no SchemaError, silent enrollment default -/

/-- Claim C7 is false on the code: `solve_optimal` performs no schema
validation and defines no `SchemaError`; when the `enrollment` column is
missing it silently gives every course enrollment 30 (printing only a
console warning, timetable.py lines 158-164), while the spec's normalizer
would fail. -/
theorem claimC7_counterexample :
    mkCourseEnrollment none ["C1"] "C1" = 30 ∧
      specNormalizeEnrollment none ["C1"] =
        Except.error "SchemaError: missing field enrollment" := by
  exact ⟨by decide, rfl⟩

/-- Claim C7 amended: a missing `enrollment` column does not fail the solve;
every listed course silently receives the default enrollment 30, and when
the column is present its values pass through unchanged. -/
theorem claimC7_amended_default (ids : List String) (c : String)
    (hc : c ∈ ids) :
    mkCourseEnrollment none ids c = 30 ∧
      ∀ col : String → Nat, mkCourseEnrollment (some col) ids c = col c := by
  constructor
  · simp [mkCourseEnrollment, hc]
  · intro col
    simp [mkCourseEnrollment, hc]

/-- Witness for the amended C7 at a concrete course list. -/
theorem claimC7_amended_default_witness :
    mkCourseEnrollment none ["C1", "C2"] "C2" = 30 ∧
      mkCourseEnrollment (some fun _ => 7) ["C1", "C2"] "C2" = 7 := by
  have h := claimC7_amended_default ["C1", "C2"] "C2" (by decide)
  exact ⟨h.1, h.2 fun _ => 7⟩

/-! ### Claim C8: derived course ids -/

theorem sectionChar_toNat (k : Nat) (hk : k ≤ 25) :
    (sectionChar k).toNat = 65 + k := by
  have hA : 'A'.toNat = 65 := rfl
  have hv : ('A'.toNat + k).isValidChar := by
    rw [hA]
    exact Or.inl (by omega)
  rw [sectionChar, Char.ofNat, dif_pos hv]
  rfl

theorem sectionChar_ne (a b : Nat) (hab : a < b) (hb : b ≤ 25) :
    sectionChar a ≠ sectionChar b := by
  intro he
  have h1 := sectionChar_toNat a (by omega)
  have h2 := sectionChar_toNat b hb
  rw [he, h2] at h1
  omega

/-- Within one `(dept, subject, grade)` bucket, `cumcount` strictly grows
along the bucket's rows. -/
theorem cumcountAt_lt (rows : List CourseRow) (i j : Nat)
    (hi : i < rows.length) (hj : j < rows.length) (hij : i < j)
    (hb : bucket (rows.get ⟨i, hi⟩) = bucket (rows.get ⟨j, hj⟩)) :
    cumcountAt rows i hi < cumcountAt rows j hj := by
  rw [cumcountAt, cumcountAt]
  have hPi : (fun p => bucket p == bucket (rows.get ⟨i, hi⟩))
      = fun p => bucket p == bucket (rows.get ⟨j, hj⟩) := by
    funext p
    rw [hb]
  rw [hPi]
  have hsub : (rows.take (i + 1)).Sublist (rows.take j) := by
    have h := List.take_sublist (i + 1) (rows.take j)
    rwa [List.take_take, min_eq_left (by omega)] at h
  have hlen := (hsub.filter
    fun p => bucket p == bucket (rows.get ⟨j, hj⟩)).length_le
  have hstep : ((rows.take (i + 1)).filter
      fun p => bucket p == bucket (rows.get ⟨j, hj⟩)).length
      = ((rows.take i).filter
        fun p => bucket p == bucket (rows.get ⟨j, hj⟩)).length + 1 := by
    rw [List.take_succ, List.getElem?_eq_getElem hi, List.filter_append]
    have hgi : rows[i] = rows.get ⟨i, hi⟩ := rfl
    have hgj : rows[j] = rows.get ⟨j, hj⟩ := rfl
    have hPtrue : (bucket rows[i] == bucket (rows.get ⟨j, hj⟩)) = true := by
      rw [hgi, hb]
      exact beq_self_eq_true _
    have hPtrue' : (bucket rows[i] == bucket rows[j]) = true := by
      rw [hgj]
      exact hPtrue
    simp [hPtrue, hPtrue']
  omega

/-- Claim C8 is false on the code: `Course_ID` is `subject + '_' + class`
(timetable.py line 418) and the section letter is derived per
`(dept, subject, grade)` group (main.py lines 31-33), so grade and dept are
not part of the id: two distinct rows with the same subject in different
departments both become section `A` and collide on id `"S_A"`. -/
theorem claimC8_counterexample :
    rowD1 ≠ rowD2 ∧
      courseIdAt [rowD1, rowD2] 0 (by decide) =
        courseIdAt [rowD1, rowD2] 1 (by decide) := by
  refine ⟨by decide, ?_⟩
  decide

/-- Claim C8 amended: the derived id is unique only within one
`(dept, subject, grade)` bucket — rows of the same bucket (with at most 26
sections) get distinct section letters, hence distinct ids; rows of
different buckets may collide. -/
theorem claimC8_amended_unique_in_bucket (rows : List CourseRow)
    (i j : Nat) (hi : i < rows.length) (hj : j < rows.length) (hij : i < j)
    (hb : bucket (rows.get ⟨i, hi⟩) = bucket (rows.get ⟨j, hj⟩))
    (hsec : cumcountAt rows j hj ≤ 25) :
    courseIdAt rows i hi ≠ courseIdAt rows j hj := by
  have hlt := cumcountAt_lt rows i j hi hj hij hb
  have hchar := sectionChar_ne _ _ hlt hsec
  intro he
  have hsubj : (rows.get ⟨i, hi⟩).subject = (rows.get ⟨j, hj⟩).subject :=
    congrArg (fun x : String × String × Nat => x.2.1) hb
  rw [courseIdAt, courseIdAt, hsubj] at he
  have hdata := congrArg String.data he
  simp only [String.data_append] at hdata
  have hcons := List.append_cancel_left hdata
  injection hcons with h1 h2
  exact hchar h1

/-- Witness for the amended C8: two rows of the same bucket get distinct
ids. -/
theorem claimC8_amended_unique_in_bucket_witness :
    courseIdAt [rowD1, rowD1b] 0 (by decide) ≠
      courseIdAt [rowD1, rowD1b] 1 (by decide) :=
  claimC8_amended_unique_in_bucket [rowD1, rowD1b] 0 1 (by decide) (by decide)
    (by decide) (by decide) (by decide)

/-! ### Claim C9: semester adjustment -/

/-- Claim C9: when the semester flag is 2, exactly the grade-3 rows have
their credit hours doubled and nothing else changes (row count, order and
all other fields are preserved); when the flag is not 2, the rows are
returned unchanged (main.py lines 34-35). -/
theorem claimC9_semester_adjust (semester : Nat) (rows : List CourseRow) :
    (semester = 2 →
      (applySemesterAdjust semester rows).length = rows.length ∧
      ∀ (i : Nat) (hi : i < rows.length)
        (hi' : i < (applySemesterAdjust semester rows).length),
        ((applySemesterAdjust semester rows).get ⟨i, hi'⟩).dept =
            (rows.get ⟨i, hi⟩).dept ∧
        ((applySemesterAdjust semester rows).get ⟨i, hi'⟩).subject =
            (rows.get ⟨i, hi⟩).subject ∧
        ((applySemesterAdjust semester rows).get ⟨i, hi'⟩).grade =
            (rows.get ⟨i, hi⟩).grade ∧
        ((applySemesterAdjust semester rows).get ⟨i, hi'⟩).professor =
            (rows.get ⟨i, hi⟩).professor ∧
        ((applySemesterAdjust semester rows).get ⟨i, hi'⟩).enrollment =
            (rows.get ⟨i, hi⟩).enrollment ∧
        ((rows.get ⟨i, hi⟩).grade = 3 →
          ((applySemesterAdjust semester rows).get ⟨i, hi'⟩).credit =
            (rows.get ⟨i, hi⟩).credit * 2) ∧
        ((rows.get ⟨i, hi⟩).grade ≠ 3 →
          (applySemesterAdjust semester rows).get ⟨i, hi'⟩ =
            rows.get ⟨i, hi⟩))
    ∧ (semester ≠ 2 → applySemesterAdjust semester rows = rows) := by
  constructor
  · intro h2
    subst h2
    rw [applySemesterAdjust, if_pos rfl]
    refine ⟨List.length_map _ _, ?_⟩
    intro i hi hi'
    have hget : (rows.map fun r =>
        if r.grade = 3 then { r with credit := r.credit * 2 } else r).get
          ⟨i, hi'⟩
        = if (rows.get ⟨i, hi⟩).grade = 3 then
            { rows.get ⟨i, hi⟩ with credit := (rows.get ⟨i, hi⟩).credit * 2 }
          else rows.get ⟨i, hi⟩ := by
      simp
    rw [hget]
    by_cases hg : (rows.get ⟨i, hi⟩).grade = 3
    · rw [if_pos hg]
      exact ⟨rfl, rfl, rfl, rfl, rfl, fun _ => rfl, fun h => absurd hg h⟩
    · rw [if_neg hg]
      exact ⟨rfl, rfl, rfl, rfl, rfl, fun h => absurd h hg, fun _ => rfl⟩
  · intro hne
    rw [applySemesterAdjust, if_neg hne]

/-- Witness for C9: doubling applies to the grade-3 row and semester 1 is a
no-op. -/
theorem claimC9_semester_adjust_witness :
    ((applySemesterAdjust 2 [rowG3, rowG1]).get ⟨0, by decide⟩).credit =
        (([rowG3, rowG1] : List CourseRow).get ⟨0, by decide⟩).credit * 2 ∧
      ((applySemesterAdjust 2 [rowG3, rowG1]).get ⟨1, by decide⟩ =
        ([rowG3, rowG1] : List CourseRow).get ⟨1, by decide⟩) ∧
      applySemesterAdjust 1 [rowG3, rowG1] = [rowG3, rowG1] := by
  have h2 := (claimC9_semester_adjust 2 [rowG3, rowG1]).1 rfl
  have h1 := (claimC9_semester_adjust 1 [rowG3, rowG1]).2 (by decide)
  exact ⟨((h2.2 0 (by decide) (by decide)).2.2.2.2.2.1 (by decide)),
    ((h2.2 1 (by decide) (by decide)).2.2.2.2.2.2 (by decide)), h1⟩

/-! ### Claim C10: output ordering -/

set_option maxRecDepth 8000 in
/-- Claim C10: on a successful solve with at least one assignment the
returned table is the ascending sort of the extracted placements by
`(Classroom_ID, Day, Start_Time)` with the row index reset positionally —
and with distinct sort keys (guaranteed by feasibility and positive
durations) it is the *unique* sorted arrangement, so the row order is a
deterministic function of the placement set.  The `Day` column is compared
as a string, code-point-wise, not by weekday position: sorting a Tuesday
(화) and a Friday (금) row in the same room puts Friday first, since
`금 < 화` as strings while 화 precedes 금 in `DAYS`. -/
theorem claimC10_sorted_output :
    (∀ (I : Inst) (A : Assign), Feasible I A →
      (∀ c ∈ I.courses, 1 ≤ I.dur c) →
      (returnedSchedule I A).Pairwise keyLE ∧
      (returnedSchedule I A).Perm (schedule I A) ∧
      ∀ l : List Placement, l.Perm (schedule I A) → l.Pairwise keyLE →
        l = returnedSchedule I A)
    ∧ sortSchedule [placeTue, placeFri] = [placeFri, placeTue] := by
  constructor
  · intro I A hF hdur
    have hsorted : (returnedSchedule I A).Pairwise keyLE :=
      List.sorted_insertionSort keyLE (schedule I A)
    refine ⟨hsorted, returnedSchedule_perm I A, ?_⟩
    intro l hperm hsortl
    have hnd : (schedule I A).Pairwise fun p q => placeKey p ≠ placeKey q :=
      schedule_placeKey_nodup I A hF hdur
    have hndl : l.Pairwise fun p q => placeKey p ≠ placeKey q := by
      refine (List.Perm.pairwise_iff ?_ hperm).mpr hnd
      intro x y h e
      exact h e.symm
    exact sorted_perm_unique (hperm.trans (returnedSchedule_perm I A).symm)
      hsortl hsorted hndl
  · decide

/-- Witness for C10 at a concrete feasible solve. -/
theorem claimC10_sorted_output_witness :
    (returnedSchedule instOne assignOne).Pairwise keyLE ∧
      (returnedSchedule instOne assignOne).Perm (schedule instOne assignOne) := by
  have h := claimC10_sorted_output.1 instOne assignOne (by decide) (by decide)
  exact ⟨h.1, h.2.1⟩

end ClassRoom
